import Mathlib

/-!
Shallow embedding of the conference scheduler (app/scheduler.py, app/main.py
scheduling endpoint, app/schemas.py request model) and proofs of the spec's
claims about it.

Modelling conventions:
* time instants and durations are `Int` minutes (the source manipulates
  whole-minute datetimes: durations are integer minutes and the day window is
  parsed from an HH:MM string);
* the SQLAlchemy store is the explicit `DB` structure; SQL queries become list
  filters over it, and in-place mutation of ORM rows becomes an updated `DB`;
* `datetime.now().date()` is the explicit `today` parameter (midnight of the
  invocation day, in minutes since the epoch);
* Python `raise ValueError` / `HTTPException` become `Except.error`;
* `ORDER BY x DESC` / `ORDER BY x` become stable insertion sorts keyed on the
  column, matching the spec's stable-tie reading of the source's queries.
-/

def colonChar : Char := (':')

def msgNoRooms : String := ("No rooms available")

def msgBadTime : String := ("time data does not match format")

def msgNotFound : String := ("Presentation not found")

def msgBooked : String := ("Room is already booked for the selected time")

def minutesPerDay : Int := 1440

/-- Room row (app/models.py `Room`): id, name, capacity. -/
structure Room where
  id : Nat
  name : String
  capacity : Int
deriving DecidableEq

/-- Presentation row (app/models.py `Presentation`): placement fields
(`room_id`, `start_time`, `end_time`) are nullable, as in the schema. -/
structure Talk where
  id : Nat
  title : String
  speaker_id : Nat
  duration_minutes : Int
  room_id : Option Nat
  start_time : Option Int
  end_time : Option Int
deriving DecidableEq

/-- One entry of the dictionaries built in `schedule_all_presentations` /
`get_existing_schedule` (scheduler.py lines 96-103, 136-146). -/
structure PlacementRec where
  presentation_id : Nat
  start_time : Int
  end_time : Int
  title : String
  speaker_id : Nat
  duration : Int
deriving DecidableEq

/-- The schedule dictionary: room id to ordered placement list, in room
insertion order (Python dicts preserve insertion order). -/
abbrev Schedule := List (Nat × List PlacementRec)

/-- The relevant slice of the database. -/
structure DB where
  rooms : List Room
  presentations : List Talk
deriving DecidableEq

/-- app/schemas.py `ScheduleRequest` (lines 154-167): note that no validator
constrains `conference_days` or the time strings. -/
structure ScheduleRequest where
  conference_days : Int
  day_start_time : String
  day_end_time : String
  break_duration : Int
deriving DecidableEq

/-- Stable descending insertion: `x` is placed before the first element whose
key is not larger, so earlier-listed elements precede later equal-keyed ones. -/
def insertDescBy (key : α → Int) (x : α) : List α → List α
  | [] => [x]
  | y :: ys => if key x < key y then y :: insertDescBy key x ys else x :: y :: ys

/-- Stable sort by descending key (models `ORDER BY key DESC`). -/
def sortDescBy (key : α → Int) : List α → List α
  | [] => []
  | x :: xs => insertDescBy key x (sortDescBy key xs)

/-- Stable ascending insertion. -/
def insertAscBy (key : α → Int) (x : α) : List α → List α
  | [] => [x]
  | y :: ys => if key y ≤ key x then y :: insertAscBy key x ys else x :: y :: ys

/-- Stable sort by ascending key (models `ORDER BY key`). -/
def sortAscBy (key : α → Int) : List α → List α
  | [] => []
  | x :: xs => insertAscBy key x (sortAscBy key xs)

def sortRoomsByCapacityDesc (rooms : List Room) : List Room :=
  sortDescBy (fun r => r.capacity) rooms

def sortTalksByDurationDesc (talks : List Talk) : List Talk :=
  sortDescBy (fun t => t.duration_minutes) talks

def sortTalksByStartAsc (talks : List Talk) : List Talk :=
  sortAscBy (fun t => t.start_time.getD 0) talks

/-- Split a character list at every colon (helper for the HH:MM parser). -/
def splitOnColon : List Char → List (List Char)
  | [] => [[]]
  | c :: rest =>
    if c = colonChar then [] :: splitOnColon rest
    else
      match splitOnColon rest with
      | [] => [[c]]
      | g :: gs => (c :: g) :: gs

def digitsToNat (cs : List Char) : Nat :=
  cs.foldl (fun a c => a * 10 + (c.toNat - 48)) 0

/-- A 1-2 digit numeric field bounded by `hi` (the `%H` / `%M` directives of
`datetime.strptime`). -/
def parseField2 (cs : List Char) (hi : Nat) : Option Nat :=
  if cs.length = 0 then none
  else if 2 < cs.length then none
  else if cs.all Char.isDigit then
    if digitsToNat cs ≤ hi then some (digitsToNat cs) else none
  else none

/-- Model of `datetime.strptime(s, "%H:%M")` (scheduler.py lines 57-58):
accepts
exactly `H:M` with a 1-2 digit hour at most 23 and a 1-2 digit minute at most
59, rejecting everything else; returns minutes after midnight. -/
def parseHM (s : String) : Option Int :=
  match splitOnColon s.toList with
  | [h, m] =>
    match parseField2 h 23, parseField2 m 59 with
    | some hv, some mv => some ((hv : Int) * 60 + (mv : Int))
    | _, _ => none
  | _ => none

/-- scheduler.py `is_speaker_available` (lines 187-217): scans every placement
committed so far in this run, and reports a conflict exactly when a placement
of the same speaker overlaps `[start_time, end_time)` under the half-open test
`not (end_time <= s2 or start_time >= e2)`.  (The source looks the speaker id
up in the database by `presentation_id`; the dictionary entry stores the same
`speaker_id` value, which the embedding reads directly.) -/
def is_speaker_available (speaker_id : Nat) (start_time end_time : Int)
    (schedule : Schedule) : Bool :=
  schedule.all fun entry =>
    entry.2.all fun p =>
      if p.speaker_id = speaker_id then
        decide (end_time ≤ p.start_time) || decide (start_time ≥ p.end_time)
      else true

/-- scheduler.py `find_next_presentation` (lines 152-185): first talk in the
list whose end would not pass `day_end` and whose speaker is free. -/
def find_next_presentation (current_time : Int) (unscheduled : List Talk)
    (schedule : Schedule) (day_end : Int) : Option Talk :=
  match unscheduled with
  | [] => none
  | p :: rest =>
    if day_end < current_time + p.duration_minutes then
      find_next_presentation current_time rest schedule day_end
    else if is_speaker_available p.speaker_id current_time
        (current_time + p.duration_minutes) schedule then
      some p
    else
      find_next_presentation current_time rest schedule day_end

/-- The dictionary entry appended at scheduler.py lines 96-103. -/
def mkRec (p : Talk) (s e : Int) : PlacementRec :=
  ⟨p.id, s, e, p.title, p.speaker_id, p.duration_minutes⟩

/-- Appends a committed entry to the list bound to `roomId`, as
`schedule[room.id].append(rec)` does. -/
def appendRec (schedule : Schedule) (roomId : Nat) (rec : PlacementRec) :
    Schedule :=
  schedule.map fun entry =>
    if entry.1 = roomId then (entry.1, entry.2 ++ [rec]) else entry

/-- The inner `while current_time < day_end_dt` loop of
`schedule_all_presentations` (scheduler.py lines 74-109) for one room on one
day.  The loop runs at most `unscheduled.length + 1` times (each placement
removes the placed talk from `unscheduled`, and a failed search breaks), so it
is rendered with that much structural fuel; `schedule_room_loop_fuel_irrel`
below checks that any sufficient fuel computes the same result. -/
def schedule_room_loop (roomId : Nat) (break_duration day_end : Int) :
    Nat → Int → List Talk → Schedule → List Talk × Schedule
  | 0, _, unscheduled, schedule => (unscheduled, schedule)
  | fuel + 1, current_time, unscheduled, schedule =>
    if current_time < day_end then
      match find_next_presentation current_time unscheduled schedule day_end with
      | some p =>
        schedule_room_loop roomId break_duration day_end fuel
          (current_time + p.duration_minutes + break_duration)
          (unscheduled.erase p)
          (appendRec schedule roomId
            (mkRec p current_time (current_time + p.duration_minutes)))
      | none => (unscheduled, schedule)
    else (unscheduled, schedule)

def schedule_room (roomId : Nat) (current_time day_end break_duration : Int)
    (unscheduled : List Talk) (schedule : Schedule) : List Talk × Schedule :=
  schedule_room_loop roomId break_duration day_end (unscheduled.length + 1)
    current_time unscheduled schedule

/-- The `for room in rooms` loop of one conference day (scheduler.py
lines 69-109): `dayStart`/`dayEnd` are the absolute datetimes of this day's
window. -/
def schedule_rooms (rooms : List Room) (dayStart dayEnd break_duration : Int)
    (unscheduled : List Talk) (schedule : Schedule) : List Talk × Schedule :=
  match rooms with
  | [] => (unscheduled, schedule)
  | r :: rs =>
    let res := schedule_room r.id dayStart dayEnd break_duration unscheduled
      schedule
    schedule_rooms rs dayStart dayEnd break_duration res.1 res.2

/-- The `for day in range(conference_days)` loop (scheduler.py lines 65-109):
`date` is midnight of the previous day, advanced by one day before each pass
(`current_date += timedelta(days=1)`). -/
def schedule_days (days : Nat) (date : Int) (rooms : List Room)
    (dayStartMin dayEndMin break_duration : Int) (unscheduled : List Talk)
    (schedule : Schedule) : List Talk × Schedule :=
  match days with
  | 0 => (unscheduled, schedule)
  | d + 1 =>
    let date' := date + minutesPerDay
    let res := schedule_rooms rooms (date' + dayStartMin) (date' + dayEndMin)
      break_duration unscheduled schedule
    schedule_days d date' rooms dayStartMin dayEndMin break_duration res.1 res.2

/-- The dictionary entry built in `get_existing_schedule` (scheduler.py lines
136-146); the source calls `isoformat()` on the (set) start/end columns. -/
def existingRec (t : Talk) : PlacementRec :=
  ⟨t.id, t.start_time.getD 0, t.end_time.getD 0, t.title, t.speaker_id,
    t.duration_minutes⟩

/-- scheduler.py `get_existing_schedule` (lines 114-150): every room (original
order), with its presentations ordered by start time. -/
def get_existing_schedule (db : DB) : Schedule :=
  db.rooms.map fun room =>
    (room.id,
      (sortTalksByStartAsc
        (db.presentations.filter fun t =>
          decide (t.room_id = some room.id))).map existingRec)

/-- In-place mutation of a placed row (scheduler.py lines 91-93,
main.py lines 275-277): set room, start, end. -/
def setPlacement (t : Talk) (rid : Nat) (s e : Int) : Talk :=
  ⟨t.id, t.title, t.speaker_id, t.duration_minutes, some rid, some s, some e⟩

def applyRec (ps : List Talk) (rid : Nat) (rec : PlacementRec) : List Talk :=
  ps.map fun t =>
    if t.id = rec.presentation_id then
      setPlacement t rid rec.start_time rec.end_time
    else t

/-- The accumulated row mutations of one builder run, applied at
`db.commit()` (scheduler.py line 111): each talk appearing in the run's
schedule dictionary received exactly the room/start/end of its entry. -/
def applySchedule (db : DB) (sched : Schedule) : DB :=
  ⟨db.rooms,
    sched.foldl
      (fun ps entry => entry.2.foldl (fun ps2 rec => applyRec ps2 entry.1 rec) ps)
      db.presentations⟩

/-- The initial dictionary of per-room empty lists (scheduler.py line 61). -/
def initSchedule (rooms : List Room) : Schedule :=
  rooms.map fun r => (r.id, ([] : List PlacementRec))

/-- The unscheduled query of scheduler.py lines 47-49: talks with NULL
`start_time`, ordered by descending duration. -/
def unscheduledOf (db : DB) : List Talk :=
  sortTalksByDurationDesc (db.presentations.filter fun t => t.start_time.isNone)

/-- scheduler.py `schedule_all_presentations` (lines 26-112).  `today` is the
wall-clock `datetime.now().date()` anchor, passed explicitly.  Returns the
run's schedule dictionary together with the committed database state. -/
def schedule_all_presentations (db : DB) (req : ScheduleRequest) (today : Int) :
    Except String (Schedule × DB) :=
  let rooms := sortRoomsByCapacityDesc db.rooms
  let unscheduled := unscheduledOf db
  if rooms.isEmpty then Except.error msgNoRooms
  else if unscheduled.isEmpty then Except.ok (get_existing_schedule db, db)
  else
    match parseHM req.day_start_time, parseHM req.day_end_time with
    | some dayStartMin, some dayEndMin =>
      let res := schedule_days req.conference_days.toNat today rooms
        dayStartMin dayEndMin req.break_duration unscheduled
        (initSchedule rooms)
      Except.ok (res.2, applySchedule db res.2)
    | _, _ => Except.error msgBadTime

/-- The conflict filter of main.py lines 266-271: same room, committed span
intersecting `[start_time, start_time + duration)`, different id.  Rows with
NULL start or end never match (SQL three-valued comparison). -/
def manualConflict (presentation_id room_id : Nat) (start_time new_end : Int)
    (q : Talk) : Bool :=
  decide (q.room_id = some room_id) &&
  (match q.start_time, q.end_time with
   | some s, some e => decide (s < new_end) && decide (start_time < e)
   | _, _ => false) &&
  decide (q.id ≠ presentation_id)

/-- main.py `schedule_presentation` (lines 238-281): the manual single-talk
scheduling endpoint.  On conflict it raises before touching any row. -/
def schedule_presentation (db : DB) (presentation_id room_id : Nat)
    (start_time : Int) : Except String (Talk × DB) :=
  match db.presentations.find? (fun t => decide (t.id = presentation_id)) with
  | none => Except.error msgNotFound
  | some p =>
    let new_end := start_time + p.duration_minutes
    match db.presentations.find?
        (manualConflict presentation_id room_id start_time new_end) with
    | some _ => Except.error msgBooked
    | none =>
      Except.ok (setPlacement p room_id start_time new_end,
        ⟨db.rooms,
          db.presentations.map fun t =>
            if t.id = presentation_id then
              setPlacement t room_id start_time new_end
            else t⟩)

instance (priority := low) instDecidableEqExcept {ε α : Type} [DecidableEq ε]
    [DecidableEq α] : DecidableEq (Except ε α) := fun x y =>
  match x, y with
  | Except.error a, Except.error b =>
    if h : a = b then isTrue (by rw [h])
    else isFalse (fun hc => h (Except.error.inj hc))
  | Except.ok a, Except.ok b =>
    if h : a = b then isTrue (by rw [h])
    else isFalse (fun hc => h (Except.ok.inj hc))
  | Except.error _, Except.ok _ => isFalse (fun hc => Except.noConfusion hc)
  | Except.ok _, Except.error _ => isFalse (fun hc => Except.noConfusion hc)

/-! Basic facts about the stable sorts and the HH:MM reader. -/

theorem insertDescBy_perm {α : Type} (key : α → Int) (x : α) (l : List α) :
    (insertDescBy key x l).Perm (x :: l) := by
  induction l with
  | nil => simp [insertDescBy]
  | cons y ys ih =>
    simp only [insertDescBy]
    split
    · exact (ih.cons y).trans (List.Perm.swap x y ys)
    · exact List.Perm.refl _

theorem sortDescBy_perm {α : Type} (key : α → Int) (l : List α) :
    (sortDescBy key l).Perm l := by
  induction l with
  | nil => simp [sortDescBy]
  | cons x xs ih =>
    exact (insertDescBy_perm key x (sortDescBy key xs)).trans (ih.cons x)

theorem insertDescBy_pairwise {α : Type} (key : α → Int) (x : α) (l : List α)
    (h : l.Pairwise fun a b => key b ≤ key a) :
    (insertDescBy key x l).Pairwise (fun a b => key b ≤ key a) := by
  induction l with
  | nil => simp [insertDescBy]
  | cons y ys ih =>
    rcases List.pairwise_cons.mp h with ⟨hy, hys⟩
    simp only [insertDescBy]
    split
    · rename_i hlt
      refine List.pairwise_cons.mpr ⟨?_, ih hys⟩
      intro z hz
      rcases List.mem_cons.mp ((insertDescBy_perm key x ys).mem_iff.mp hz) with
        rfl | hz'
      · exact le_of_lt hlt
      · exact hy z hz'
    · rename_i hnlt
      refine List.pairwise_cons.mpr ⟨?_, h⟩
      intro z hz
      rcases List.mem_cons.mp hz with rfl | hz'
      · exact le_of_not_lt hnlt
      · exact le_trans (hy z hz') (le_of_not_lt hnlt)

theorem sortDescBy_pairwise {α : Type} (key : α → Int) (l : List α) :
    (sortDescBy key l).Pairwise (fun a b => key b ≤ key a) := by
  induction l with
  | nil => simp [sortDescBy]
  | cons x xs ih => exact insertDescBy_pairwise key x _ ih

theorem parseField2_le {cs : List Char} {hi v : Nat}
    (h : parseField2 cs hi = some v) : v ≤ hi := by
  unfold parseField2 at h
  split at h
  · exact absurd h (by simp)
  · split at h
    · exact absurd h (by simp)
    · split at h
      · split at h
        · rename_i hle
          cases h
          exact hle
        · exact absurd h (by simp)
      · exact absurd h (by simp)

theorem parseHM_range {s : String} {v : Int} (h : parseHM s = some v) :
    0 ≤ v ∧ v ≤ 1439 := by
  unfold parseHM at h
  split at h
  · split at h
    · rename_i hv mv hpa hpb
      cases h
      have h1 := parseField2_le hpa
      have h2 := parseField2_le hpb
      omega
    · simp at h
  · simp at h

/-! Facts about the candidate search and the availability oracle. -/

theorem find_next_presentation_mem {current_time day_end : Int}
    {unscheduled : List Talk} {schedule : Schedule} {p : Talk}
    (h : find_next_presentation current_time unscheduled schedule day_end =
      some p) : p ∈ unscheduled := by
  induction unscheduled with
  | nil => exact absurd h (by simp [find_next_presentation])
  | cons q rest ih =>
    unfold find_next_presentation at h
    split at h
    · exact List.mem_cons_of_mem q (ih h)
    · split at h
      · cases h
        exact List.mem_cons_self _ _
      · exact List.mem_cons_of_mem q (ih h)

theorem find_next_presentation_fits {current_time day_end : Int}
    {unscheduled : List Talk} {schedule : Schedule} {p : Talk}
    (h : find_next_presentation current_time unscheduled schedule day_end =
      some p) : current_time + p.duration_minutes ≤ day_end := by
  induction unscheduled with
  | nil => exact absurd h (by simp [find_next_presentation])
  | cons q rest ih =>
    unfold find_next_presentation at h
    split at h
    · exact ih h
    · split at h
      · rename_i hnlt _
        cases h
        omega
      · exact ih h

theorem find_next_presentation_available {current_time day_end : Int}
    {unscheduled : List Talk} {schedule : Schedule} {p : Talk}
    (h : find_next_presentation current_time unscheduled schedule day_end =
      some p) :
    is_speaker_available p.speaker_id current_time
      (current_time + p.duration_minutes) schedule = true := by
  induction unscheduled with
  | nil => exact absurd h (by simp [find_next_presentation])
  | cons q rest ih =>
    unfold find_next_presentation at h
    split at h
    · exact ih h
    · split at h
      · rename_i hav
        cases h
        exact hav
      · exact ih h

/-- C2: the candidate search is exactly a first-fit scan: it returns the
first talk of the given list (the builder passes the duration-descending
sorted unscheduled list, shared across rooms and days) that both fits in the
remaining day window and whose presenter the Availability Oracle declares
free, and `none` when no talk qualifies; and the builder's sort is indeed a
duration-descending stable permutation of its input. -/
theorem find_next_presentation_first_fit :
    (∀ (current_time day_end : Int) (unscheduled : List Talk)
      (schedule : Schedule),
      find_next_presentation current_time unscheduled schedule day_end =
        unscheduled.find? (fun p =>
          decide (current_time + p.duration_minutes ≤ day_end) &&
          is_speaker_available p.speaker_id current_time
            (current_time + p.duration_minutes) schedule)) ∧
    (∀ talks : List Talk,
      (sortTalksByDurationDesc talks).Pairwise
        (fun a b => b.duration_minutes ≤ a.duration_minutes) ∧
      (sortTalksByDurationDesc talks).Perm talks) := by
  constructor
  · intro current_time day_end unscheduled schedule
    induction unscheduled with
    | nil => rfl
    | cons p rest ih =>
      unfold find_next_presentation
      by_cases h1 : day_end < current_time + p.duration_minutes
      · rw [if_pos h1]
        have hd : decide (current_time + p.duration_minutes ≤ day_end) = false := by
          simp
          omega
        rw [List.find?_cons_of_neg _ (by rw [hd]; simp), ih]
      · rw [if_neg h1]
        have hd : decide (current_time + p.duration_minutes ≤ day_end) = true := by
          simp
          omega
        by_cases h2 : is_speaker_available p.speaker_id current_time
            (current_time + p.duration_minutes) schedule = true
        · rw [if_pos h2, List.find?_cons_of_pos _ (by rw [hd, h2]; rfl)]
        · rw [if_neg h2,
            List.find?_cons_of_neg _ (by
              rw [hd, Bool.eq_false_iff.mpr h2]
              simp), ih]
  · intro talks
    exact ⟨sortDescBy_pairwise _ talks, sortDescBy_perm _ talks⟩

/-- C3: the Availability Oracle reports a conflict (returns `false`) exactly
when some committed placement of the queried presenter overlaps the queried
half-open span, i.e. `NOT (end ≤ s2 OR start ≥ e2)`; being a plain function
of its arguments, it has no side effects. -/
theorem is_speaker_available_conflict_iff (speaker_id : Nat)
    (start_time end_time : Int) (schedule : Schedule) :
    is_speaker_available speaker_id start_time end_time schedule = false ↔
      ∃ entry ∈ schedule, ∃ p ∈ entry.2, p.speaker_id = speaker_id ∧
        ¬(end_time ≤ p.start_time ∨ start_time ≥ p.end_time) := by
  rw [show (is_speaker_available speaker_id start_time end_time schedule = false)
      ↔ ¬(is_speaker_available speaker_id start_time end_time schedule = true) by
    simp]
  unfold is_speaker_available
  simp only [List.all_eq_true]
  constructor
  · intro h
    by_contra hc
    push_neg at hc
    apply h
    intro entry he p hp
    by_cases hs : p.speaker_id = speaker_id
    · rw [if_pos hs]
      simp only [Bool.or_eq_true, decide_eq_true_eq]
      exact hc entry he p hp hs
    · rw [if_neg hs]
  · intro h hall
    rcases h with ⟨entry, he, p, hp, hs, hov⟩
    have := hall entry he p hp
    rw [if_pos hs] at this
    simp only [Bool.or_eq_true, decide_eq_true_eq] at this
    exact hov this

/-! The run invariant of the greedy builder. -/

/-- Well-formed placement: nonnegative span. -/
def recWF (r : PlacementRec) : Prop := r.start_time ≤ r.end_time

/-- Separation of placements: `a` ends at least `g` minutes before `b`
starts. -/
def gapLE (g : Int) (a b : PlacementRec) : Prop := a.end_time + g ≤ b.start_time

/-- The two half-open spans do not intersect. -/
def noOv (a b : PlacementRec) : Prop :=
  a.end_time ≤ b.start_time ∨ b.end_time ≤ a.start_time

/-- If the two placements share a speaker, their spans do not intersect. -/
def spOK (a b : PlacementRec) : Prop := a.speaker_id = b.speaker_id → noOv a b

/-- Every placement of a schedule dictionary, in iteration order. -/
def allRecs (sched : Schedule) : List PlacementRec :=
  (sched.map Prod.snd).flatten

/-- Invariant carried through the nested scheduling loops: each room's list
is pairwise separated by at least `g`, every committed span is well formed,
and placements sharing a speaker never intersect, across all rooms. -/
def InvSched (g : Int) (sched : Schedule) : Prop :=
  (∀ entry ∈ sched, entry.2.Pairwise (gapLE g) ∧ ∀ rec ∈ entry.2, recWF rec) ∧
  (allRecs sched).Pairwise spOK

/-- Everything already placed in room `rid` ends at least `g` before `t`. -/
def RoomBound (g : Int) (sched : Schedule) (rid : Nat) (t : Int) : Prop :=
  ∀ entry ∈ sched, entry.1 = rid → ∀ rec ∈ entry.2, rec.end_time + g ≤ t

/-- Relation stating `e'` is `e` with placements satisfying `P` appended,
and only room `rid`
may actually have been extended. -/
def ExtBy (rid : Nat) (P : PlacementRec → Prop)
    (e e' : Nat × List PlacementRec) : Prop :=
  e'.1 = e.1 ∧ ∃ new, e'.2 = e.2 ++ new ∧ (e.1 ≠ rid → new = []) ∧
    ∀ rec ∈ new, P rec

/-- Relation stating `e'` is `e` with placements satisfying `P`
appended. -/
def ExtAny (P : PlacementRec → Prop) (e e' : Nat × List PlacementRec) : Prop :=
  e'.1 = e.1 ∧ ∃ new, e'.2 = e.2 ++ new ∧ ∀ rec ∈ new, P rec

theorem spOK_symm : ∀ {a b : PlacementRec}, spOK a b → spOK b a := by
  intro a b h heq
  rcases h heq.symm with h1 | h1
  · exact Or.inr h1
  · exact Or.inl h1

theorem mem_allRecs {rec : PlacementRec} {sched : Schedule} :
    rec ∈ allRecs sched ↔ ∃ entry ∈ sched, rec ∈ entry.2 := by
  simp only [allRecs, List.mem_flatten, List.mem_map]
  constructor
  · rintro ⟨l, ⟨entry, he, rfl⟩, hr⟩
    exact ⟨entry, he, hr⟩
  · rintro ⟨entry, he, hr⟩
    exact ⟨entry.2, ⟨entry, he, rfl⟩, hr⟩

theorem allRecs_append_cons (l1 l2 : Schedule) (r : Nat)
    (rs : List PlacementRec) :
    allRecs (l1 ++ (r, rs) :: l2) = allRecs l1 ++ rs ++ allRecs l2 := by
  simp [allRecs, List.append_assoc]

theorem forall₂_extBy_refl (rid : Nat) (P : PlacementRec → Prop)
    (l : Schedule) : List.Forall₂ (ExtBy rid P) l l :=
  List.forall₂_same.mpr fun e _ =>
    ⟨rfl, [], by simp, fun _ => rfl, fun _ hr => absurd hr (List.not_mem_nil _)⟩

theorem forall₂_extBy_trans {rid : Nat} {P : PlacementRec → Prop}
    {l1 l2 l3 : Schedule} (h12 : List.Forall₂ (ExtBy rid P) l1 l2)
    (h23 : List.Forall₂ (ExtBy rid P) l2 l3) :
    List.Forall₂ (ExtBy rid P) l1 l3 := by
  induction h12 generalizing l3 with
  | nil =>
    cases h23
    exact List.Forall₂.nil
  | cons hab ht ih =>
    cases h23 with
    | cons hbc ht' =>
      refine List.Forall₂.cons ?_ (ih ht')
      obtain ⟨hf1, n1, he1, hc1, hp1⟩ := hab
      obtain ⟨hf2, n2, he2, hc2, hp2⟩ := hbc
      refine ⟨hf2.trans hf1, n1 ++ n2, ?_, ?_, ?_⟩
      · rw [he2, he1, List.append_assoc]
      · intro hne
        rw [hc1 hne, hc2 (by rw [hf1]; exact hne)]
        rfl
      · intro rec hr
        rcases List.mem_append.mp hr with h | h
        · exact hp1 rec h
        · exact hp2 rec h

theorem forall₂_extBy_mono {rid : Nat} {P Q : PlacementRec → Prop}
    {l1 l2 : Schedule} (hPQ : ∀ r, P r → Q r)
    (h : List.Forall₂ (ExtBy rid P) l1 l2) :
    List.Forall₂ (ExtBy rid Q) l1 l2 := by
  refine h.imp ?_
  rintro a b ⟨hf, new, he, hc, hp⟩
  exact ⟨hf, new, he, hc, fun rec hr => hPQ rec (hp rec hr)⟩

theorem forall₂_extAny_of_extBy {rid : Nat} {P : PlacementRec → Prop}
    {l1 l2 : Schedule} (h : List.Forall₂ (ExtBy rid P) l1 l2) :
    List.Forall₂ (ExtAny P) l1 l2 := by
  refine h.imp ?_
  rintro a b ⟨hf, new, he, _, hp⟩
  exact ⟨hf, new, he, hp⟩

theorem forall₂_extAny_trans {P : PlacementRec → Prop} {l1 l2 l3 : Schedule}
    (h12 : List.Forall₂ (ExtAny P) l1 l2)
    (h23 : List.Forall₂ (ExtAny P) l2 l3) :
    List.Forall₂ (ExtAny P) l1 l3 := by
  induction h12 generalizing l3 with
  | nil =>
    cases h23
    exact List.Forall₂.nil
  | cons hab ht ih =>
    cases h23 with
    | cons hbc ht' =>
      refine List.Forall₂.cons ?_ (ih ht')
      obtain ⟨hf1, n1, he1, hp1⟩ := hab
      obtain ⟨hf2, n2, he2, hp2⟩ := hbc
      refine ⟨hf2.trans hf1, n1 ++ n2, by rw [he2, he1, List.append_assoc], ?_⟩
      intro rec hr
      rcases List.mem_append.mp hr with h | h
      · exact hp1 rec h
      · exact hp2 rec h

theorem forall₂_extAny_mono {P Q : PlacementRec → Prop} {l1 l2 : Schedule}
    (hPQ : ∀ r, P r → Q r) (h : List.Forall₂ (ExtAny P) l1 l2) :
    List.Forall₂ (ExtAny Q) l1 l2 := by
  refine h.imp ?_
  rintro a b ⟨hf, new, he, hp⟩
  exact ⟨hf, new, he, fun rec hr => hPQ rec (hp rec hr)⟩

theorem forall₂_mem_right {R : (Nat × List PlacementRec) →
    (Nat × List PlacementRec) → Prop} {l l' : Schedule}
    (h : List.Forall₂ R l l') {b : Nat × List PlacementRec} (hb : b ∈ l') :
    ∃ a ∈ l, R a b := by
  induction h with
  | nil => exact absurd hb (List.not_mem_nil _)
  | cons hab ht ih =>
    rcases List.mem_cons.mp hb with rfl | hb'
    · exact ⟨_, List.mem_cons_self _ _, hab⟩
    · obtain ⟨a, ha, hr⟩ := ih hb'
      exact ⟨a, List.mem_cons_of_mem _ ha, hr⟩

theorem appendRec_keys (sched : Schedule) (rid : Nat) (rec : PlacementRec) :
    (appendRec sched rid rec).map Prod.fst = sched.map Prod.fst := by
  induction sched with
  | nil => rfl
  | cons e es ih =>
    by_cases he : e.1 = rid
    · simpa [appendRec, he] using ih
    · simpa [appendRec, he] using ih

theorem appendRec_eq_of_not_mem {sched : Schedule} {rid : Nat}
    {rec : PlacementRec} (h : rid ∉ sched.map Prod.fst) :
    appendRec sched rid rec = sched := by
  induction sched with
  | nil => rfl
  | cons e es ih =>
    simp only [List.map_cons, List.mem_cons] at h
    push_neg at h
    have ih' := ih h.2
    simp only [appendRec, List.map_cons] at ih' ⊢
    rw [if_neg (fun hc => h.1 hc.symm), ih']

theorem appendRec_split {sched : Schedule} {rid : Nat} (rec : PlacementRec)
    (hnd : (sched.map Prod.fst).Nodup) (hmem : rid ∈ sched.map Prod.fst) :
    ∃ l1 rs l2, sched = l1 ++ (rid, rs) :: l2 ∧
      appendRec sched rid rec = l1 ++ (rid, rs ++ [rec]) :: l2 := by
  induction sched with
  | nil => exact absurd hmem (List.not_mem_nil _)
  | cons e es ih =>
    rcases e with ⟨a, recs⟩
    by_cases he : a = rid
    · subst he
      have hnotin : a ∉ es.map Prod.fst := by
        simp only [List.map_cons] at hnd
        exact (List.nodup_cons.mp hnd).1
      refine ⟨[], recs, es, by simp, ?_⟩
      simp only [appendRec, List.map_cons, if_pos rfl, List.nil_append]
      rw [show (es.map fun entry =>
          if entry.1 = a then (entry.1, entry.2 ++ [rec]) else entry) =
          appendRec es a rec from rfl]
      rw [appendRec_eq_of_not_mem hnotin]
      simp
    · simp only [List.map_cons, List.mem_cons] at hmem
      rcases hmem with h | hmem'
      · exact absurd h.symm he
      · have hnd' : (es.map Prod.fst).Nodup := by
          simp only [List.map_cons] at hnd
          exact (List.nodup_cons.mp hnd).2
        obtain ⟨l1, rs, l2, hsched, happ⟩ := ih hnd' hmem'
        refine ⟨(a, recs) :: l1, rs, l2, by rw [List.cons_append, ← hsched], ?_⟩
        simp only [appendRec, List.map_cons, if_neg he, List.cons_append]
        rw [show (es.map fun entry =>
            if entry.1 = rid then (entry.1, entry.2 ++ [rec]) else entry) =
            appendRec es rid rec from rfl]
        rw [happ]

theorem forall₂_extBy_appendRec {P : PlacementRec → Prop} (sched : Schedule)
    (rid : Nat) (rec : PlacementRec) (hP : P rec) :
    List.Forall₂ (ExtBy rid P) sched (appendRec sched rid rec) := by
  induction sched with
  | nil => exact List.Forall₂.nil
  | cons e es ih =>
    simp only [appendRec, List.map_cons]
    refine List.Forall₂.cons ?_ ih
    by_cases he : e.1 = rid
    · rw [if_pos he]
      refine ⟨rfl, [rec], rfl, fun hne => absurd he hne, ?_⟩
      intro r hr
      rcases List.mem_cons.mp hr with rfl | hr'
      · exact hP
      · exact absurd hr' (List.not_mem_nil _)
    · rw [if_neg he]
      exact ⟨rfl, [], by simp, fun _ => rfl,
        fun r hr => absurd hr (List.not_mem_nil _)⟩

theorem is_speaker_available_forall {sid : Nat} {s e : Int} {sched : Schedule}
    (h : is_speaker_available sid s e sched = true) :
    ∀ entry ∈ sched, ∀ p ∈ entry.2, p.speaker_id = sid →
      (e ≤ p.start_time ∨ s ≥ p.end_time) := by
  unfold is_speaker_available at h
  rw [List.all_eq_true] at h
  intro entry he p hp hs
  have h1 := h entry he
  rw [List.all_eq_true] at h1
  have h2 := h1 p hp
  rw [if_pos hs] at h2
  simpa using h2

/-- Invariant preservation through one room's `while` loop: the remaining
talks shrink, the dictionary keys are untouched, the run invariant holds, and
the schedule only grew by placements of room `rid` that start no earlier than
the entry cursor, are well formed, and end inside the day window. -/
theorem schedule_room_loop_inv (rid : Nat) (g br de : Int)
    (hg0 : 0 ≤ g) (hgbr : g ≤ br) (hbr : 0 ≤ br) :
    ∀ (fuel : Nat) (ct : Int) (us : List Talk) (sched : Schedule)
      (u' : List Talk) (s' : Schedule),
    schedule_room_loop rid br de fuel ct us sched = (u', s') →
    (∀ p ∈ us, 0 ≤ p.duration_minutes) →
    (sched.map Prod.fst).Nodup →
    InvSched g sched →
    RoomBound g sched rid ct →
    u' ⊆ us ∧ s'.map Prod.fst = sched.map Prod.fst ∧ InvSched g s' ∧
      List.Forall₂ (ExtBy rid fun rec =>
        ct ≤ rec.start_time ∧ recWF rec ∧ rec.end_time ≤ de) sched s' := by
  intro fuel
  induction fuel with
  | zero =>
    intro ct us sched u' s' hrun hdur hnd hinv hrb
    simp only [schedule_room_loop] at hrun
    injection hrun with h1 h2
    subst h1
    subst h2
    exact ⟨fun x hx => hx, rfl, hinv, forall₂_extBy_refl _ _ _⟩
  | succ fuel ih =>
    intro ct us sched u' s' hrun hdur hnd hinv hrb
    simp only [schedule_room_loop] at hrun
    split at hrun
    · split at hrun
      · rename_i hlt p hfind
        have hpmem := find_next_presentation_mem hfind
        have hfits := find_next_presentation_fits hfind
        have havail := find_next_presentation_available hfind
        have hpdur : 0 ≤ p.duration_minutes := hdur p hpmem
        have hdur' : ∀ q ∈ us.erase p, 0 ≤ q.duration_minutes :=
          fun q hq => hdur q (List.erase_subset p us hq)
        have hnd' : ((appendRec sched rid
            (mkRec p ct (ct + p.duration_minutes))).map Prod.fst).Nodup := by
          rw [appendRec_keys]
          exact hnd
        have hsp : ∀ y ∈ allRecs sched,
            spOK (mkRec p ct (ct + p.duration_minutes)) y := by
          intro y hy heq
          obtain ⟨entry, he, hyent⟩ := mem_allRecs.mp hy
          rcases is_speaker_available_forall havail entry he y hyent heq.symm
            with h1 | h1
          · exact Or.inl h1
          · exact Or.inr h1
        have hinv' : InvSched g (appendRec sched rid
            (mkRec p ct (ct + p.duration_minutes))) := by
          by_cases hmem : rid ∈ sched.map Prod.fst
          · obtain ⟨l1, rs, l2, hsched, happ⟩ :=
              appendRec_split (mkRec p ct (ct + p.duration_minutes)) hnd hmem
            have hmid : (rid, rs) ∈ sched := by
              rw [hsched]
              exact List.mem_append_right _ (List.mem_cons_self _ _)
            have hrs_pair : rs.Pairwise (gapLE g) := (hinv.1 (rid, rs) hmid).1
            have hrs_wf : ∀ rec ∈ rs, recWF rec := (hinv.1 (rid, rs) hmid).2
            have hrs_gap : ∀ a ∈ rs,
                gapLE g a (mkRec p ct (ct + p.duration_minutes)) := by
              intro a ha
              exact hrb (rid, rs) hmid rfl a ha
            constructor
            · intro entry hentry
              rw [happ] at hentry
              rcases List.mem_append.mp hentry with h | h
              · exact hinv.1 entry (by
                  rw [hsched]
                  exact List.mem_append_left _ h)
              · rcases List.mem_cons.mp h with rfl | h'
                · constructor
                  · rw [List.pairwise_append]
                    refine ⟨hrs_pair, List.pairwise_singleton _ _, ?_⟩
                    intro a ha b hb
                    rcases List.mem_singleton.mp hb with rfl
                    exact hrs_gap a ha
                  · intro rec hrec
                    rcases List.mem_append.mp hrec with h1 | h1
                    · exact hrs_wf rec h1
                    · rcases List.mem_singleton.mp h1 with rfl
                      show ct ≤ ct + p.duration_minutes
                      omega
                · exact hinv.1 entry (by
                    rw [hsched]
                    exact List.mem_append_right _ (List.mem_cons_of_mem _ h'))
            · have e1 : allRecs (l1 ++
                  (rid, rs ++ [mkRec p ct (ct + p.duration_minutes)]) :: l2) =
                  (allRecs l1 ++ rs) ++
                    mkRec p ct (ct + p.duration_minutes) :: allRecs l2 := by
                rw [allRecs_append_cons]
                simp [List.append_assoc]
              rw [happ, e1, List.pairwise_middle spOK_symm, List.pairwise_cons]
              constructor
              · intro y hy
                apply hsp
                rw [hsched, allRecs_append_cons]
                exact hy
              · have h2 := hinv.2
                rw [hsched, allRecs_append_cons] at h2
                exact h2
          · rw [appendRec_eq_of_not_mem hmem]
            exact hinv
        have hrb' : RoomBound g (appendRec sched rid
            (mkRec p ct (ct + p.duration_minutes))) rid
            (ct + p.duration_minutes + br) := by
          intro entry hentry hfst rec hrec
          unfold appendRec at hentry
          obtain ⟨e0, he0, heq⟩ := List.mem_map.mp hentry
          by_cases he : e0.1 = rid
          · rw [if_pos he] at heq
            cases heq
            rcases List.mem_append.mp hrec with h1 | h1
            · have := hrb e0 he0 he rec h1
              omega
            · rcases List.mem_singleton.mp h1 with rfl
              show ct + p.duration_minutes + g ≤ ct + p.duration_minutes + br
              omega
          · rw [if_neg he] at heq
            cases heq
            exact absurd hfst he
        obtain ⟨hsub, hkeys, hinvf, hf2⟩ := ih (ct + p.duration_minutes + br)
          (us.erase p)
          (appendRec sched rid (mkRec p ct (ct + p.duration_minutes)))
          u' s' hrun hdur' hnd' hinv' hrb'
        refine ⟨fun x hx => List.erase_subset p us (hsub hx), ?_, hinvf, ?_⟩
        · rw [hkeys, appendRec_keys]
        · have step : List.Forall₂ (ExtBy rid fun rec =>
              ct ≤ rec.start_time ∧ recWF rec ∧ rec.end_time ≤ de) sched
              (appendRec sched rid (mkRec p ct (ct + p.duration_minutes))) := by
            refine forall₂_extBy_appendRec _ _ _ ⟨le_refl ct, ?_, hfits⟩
            show ct ≤ ct + p.duration_minutes
            omega
          have rest : List.Forall₂ (ExtBy rid fun rec =>
              ct ≤ rec.start_time ∧ recWF rec ∧ rec.end_time ≤ de)
              (appendRec sched rid (mkRec p ct (ct + p.duration_minutes)))
              s' := by
            refine forall₂_extBy_mono ?_ hf2
            intro r hr
            refine ⟨le_trans ?_ hr.1, hr.2⟩
            omega
          exact forall₂_extBy_trans step rest
      · injection hrun with h1 h2
        subst h1
        subst h2
        exact ⟨fun x hx => hx, rfl, hinv, forall₂_extBy_refl _ _ _⟩
    · injection hrun with h1 h2
      subst h1
      subst h2
      exact ⟨fun x hx => hx, rfl, hinv, forall₂_extBy_refl _ _ _⟩

theorem forall₂_extAny_refl (P : PlacementRec → Prop) (l : Schedule) :
    List.Forall₂ (ExtAny P) l l :=
  List.forall₂_same.mpr fun e _ =>
    ⟨rfl, [], by simp, fun _ hr => absurd hr (List.not_mem_nil _)⟩

/-- Invariant preservation through one day's pass over the room list: only
rooms still to be visited need their cursor bound, and all growth lies inside
this day's window. -/
theorem schedule_rooms_inv (g br ds de : Int)
    (hg0 : 0 ≤ g) (hgbr : g ≤ br) (hbr : 0 ≤ br) :
    ∀ (rooms : List Room) (us : List Talk) (sched : Schedule)
      (u' : List Talk) (s' : Schedule),
    schedule_rooms rooms ds de br us sched = (u', s') →
    (∀ p ∈ us, 0 ≤ p.duration_minutes) →
    (sched.map Prod.fst).Nodup →
    (rooms.map Room.id).Nodup →
    InvSched g sched →
    (∀ entry ∈ sched, entry.1 ∈ rooms.map Room.id →
      ∀ rec ∈ entry.2, rec.end_time + g ≤ ds) →
    u' ⊆ us ∧ s'.map Prod.fst = sched.map Prod.fst ∧ InvSched g s' ∧
      List.Forall₂ (ExtAny fun rec =>
        ds ≤ rec.start_time ∧ recWF rec ∧ rec.end_time ≤ de) sched s' := by
  intro rooms
  induction rooms with
  | nil =>
    intro us sched u' s' hrun hdur hnd hrn hinv hroom
    simp only [schedule_rooms] at hrun
    injection hrun with h1 h2
    subst h1
    subst h2
    exact ⟨fun x hx => hx, rfl, hinv, forall₂_extAny_refl _ _⟩
  | cons r rs ih =>
    intro us sched u' s' hrun hdur hnd hrn hinv hroom
    simp only [schedule_rooms] at hrun
    obtain ⟨u1, s1, hmid⟩ :
        ∃ u1 s1, schedule_room r.id ds de br us sched = (u1, s1) := ⟨_, _, rfl⟩
    rw [hmid] at hrun
    unfold schedule_room at hmid
    have hrb : RoomBound g sched r.id ds := by
      intro entry he hf rec hr
      refine hroom entry he ?_ rec hr
      rw [hf]
      simp
    obtain ⟨hsub1, hkeys1, hinv1, hf21⟩ :=
      schedule_room_loop_inv r.id g br de hg0 hgbr hbr _ ds us sched u1 s1
        hmid hdur hnd hinv hrb
    have hdur1 : ∀ p ∈ u1, 0 ≤ p.duration_minutes :=
      fun p hp => hdur p (hsub1 hp)
    have hnd1 : (s1.map Prod.fst).Nodup := by
      rw [hkeys1]
      exact hnd
    have hrn1 : (rs.map Room.id).Nodup := by
      simp only [List.map_cons, List.nodup_cons] at hrn
      exact hrn.2
    have hrid_not : r.id ∉ rs.map Room.id := by
      simp only [List.map_cons, List.nodup_cons] at hrn
      exact hrn.1
    have hroom1 : ∀ entry ∈ s1, entry.1 ∈ rs.map Room.id →
        ∀ rec ∈ entry.2, rec.end_time + g ≤ ds := by
      intro entry he hf rec hr
      obtain ⟨e0, he0, hfst, new, hnew, hcond, _⟩ := forall₂_mem_right hf21 he
      have hne : e0.1 ≠ r.id := by
        intro hc
        rw [hfst, hc] at hf
        exact hrid_not hf
      rw [hnew, hcond hne, List.append_nil] at hr
      refine hroom e0 he0 ?_ rec hr
      rw [hfst] at hf
      exact List.mem_cons_of_mem _ hf
    obtain ⟨hsub2, hkeys2, hinv2, hf22⟩ :=
      ih u1 s1 u' s' hrun hdur1 hnd1 hrn1 hinv1 hroom1
    exact ⟨fun x hx => hsub1 (hsub2 hx), hkeys2.trans hkeys1, hinv2,
      forall₂_extAny_trans (forall₂_extAny_of_extBy hf21) hf22⟩

/-- Invariant preservation through the day loop.  Growth on day `k`
(0-indexed) lies in that day's window, and after `n` days everything placed
ends early enough — by at least `g` — for the following day's start cursor,
provided `g` does not exceed the overnight gap (`hgday`). -/
theorem schedule_days_inv (g br dsMin deMin : Int) (rooms : List Room)
    (hg0 : 0 ≤ g) (hgbr : g ≤ br) (hbr : 0 ≤ br)
    (hds0 : 0 ≤ dsMin) (hde0 : 0 ≤ deMin)
    (hgday : g ≤ minutesPerDay - deMin + dsMin)
    (hrn : (rooms.map Room.id).Nodup) :
    ∀ (n : Nat) (date : Int) (us : List Talk) (sched : Schedule)
      (u' : List Talk) (s' : Schedule),
    schedule_days n date rooms dsMin deMin br us sched = (u', s') →
    (∀ p ∈ us, 0 ≤ p.duration_minutes) →
    (sched.map Prod.fst).Nodup →
    InvSched g sched →
    (∀ rec ∈ allRecs sched, rec.end_time + g ≤ date + minutesPerDay + dsMin) →
    u' ⊆ us ∧ s'.map Prod.fst = sched.map Prod.fst ∧ InvSched g s' ∧
      List.Forall₂ (ExtAny fun rec => ∃ k : Nat, k < n ∧
        date + ((k : Int) + 1) * minutesPerDay + dsMin ≤ rec.start_time ∧
        recWF rec ∧
        rec.end_time ≤ date + ((k : Int) + 1) * minutesPerDay + deMin)
        sched s' ∧
      (∀ rec ∈ allRecs s',
        rec.end_time + g ≤ date + (n : Int) * minutesPerDay + minutesPerDay +
          dsMin) := by
  intro n
  induction n with
  | zero =>
    intro date us sched u' s' hrun hdur hnd hinv hB
    simp only [schedule_days] at hrun
    injection hrun with h1 h2
    subst h1
    subst h2
    refine ⟨fun x hx => hx, rfl, hinv, forall₂_extAny_refl _ _, ?_⟩
    intro rec hr
    have := hB rec hr
    simp only [minutesPerDay] at *
    omega
  | succ n ih =>
    intro date us sched u' s' hrun hdur hnd hinv hB
    simp only [schedule_days] at hrun
    obtain ⟨u1, s1, hmid⟩ : ∃ u1 s1,
        schedule_rooms rooms (date + minutesPerDay + dsMin)
          (date + minutesPerDay + deMin) br us sched = (u1, s1) := ⟨_, _, rfl⟩
    rw [hmid] at hrun
    obtain ⟨hsub1, hkeys1, hinv1, hf21⟩ :=
      schedule_rooms_inv g br _ _ hg0 hgbr hbr rooms us sched u1 s1 hmid hdur
        hnd hrn hinv
        (fun entry he _ rec hr => hB rec (mem_allRecs.mpr ⟨entry, he, hr⟩))
    have hB1 : ∀ rec ∈ allRecs s1,
        rec.end_time + g ≤ (date + minutesPerDay) + minutesPerDay + dsMin := by
      intro rec hr
      obtain ⟨entry, he, hrent⟩ := mem_allRecs.mp hr
      obtain ⟨e0, he0, _, new, hnew, hP⟩ := forall₂_mem_right hf21 he
      rw [hnew] at hrent
      rcases List.mem_append.mp hrent with h1 | h1
      · have := hB rec (mem_allRecs.mpr ⟨e0, he0, h1⟩)
        simp only [minutesPerDay] at *
        omega
      · have := (hP rec h1).2.2
        simp only [minutesPerDay] at *
        omega
    obtain ⟨hsub2, hkeys2, hinv2, hf22, hB2⟩ :=
      ih (date + minutesPerDay) u1 s1 u' s' hrun
        (fun p hp => hdur p (hsub1 hp)) (by rw [hkeys1]; exact hnd) hinv1 hB1
    refine ⟨fun x hx => hsub1 (hsub2 hx), hkeys2.trans hkeys1, hinv2, ?_, ?_⟩
    · refine forall₂_extAny_trans (forall₂_extAny_mono ?_ hf21)
        (forall₂_extAny_mono ?_ hf22)
      · intro rec hr
        refine ⟨0, Nat.succ_pos n, ?_, hr.2.1, ?_⟩
        · have := hr.1
          simp only [minutesPerDay] at *
          omega
        · have := hr.2.2
          simp only [minutesPerDay] at *
          omega
      · rintro rec ⟨k, hk, h1, h2, h3⟩
        refine ⟨k + 1, by omega, ?_, h2, ?_⟩
        · push_cast at h1 ⊢
          simp only [minutesPerDay] at *
          omega
        · push_cast at h3 ⊢
          simp only [minutesPerDay] at *
          omega
    · intro rec hr
      have := hB2 rec hr
      push_cast at this ⊢
      simp only [minutesPerDay] at *
      omega

theorem initSchedule_keys (rooms : List Room) :
    (initSchedule rooms).map Prod.fst = rooms.map Room.id := by
  simp [initSchedule, List.map_map]

theorem allRecs_init (rooms : List Room) :
    allRecs (initSchedule rooms) = [] := by
  induction rooms with
  | nil => rfl
  | cons r rs ih => simpa [allRecs, initSchedule] using ih

theorem InvSched_init (g : Int) (rooms : List Room) :
    InvSched g (initSchedule rooms) := by
  constructor
  · intro entry he
    obtain ⟨r, _, rfl⟩ := List.mem_map.mp he
    exact ⟨List.Pairwise.nil, fun rec hr => absurd hr (List.not_mem_nil _)⟩
  · rw [allRecs_init]
    exact List.Pairwise.nil

/-- Unfolds a successful run of the builder on the scheduling path (rooms
present, at least one unscheduled talk) into its components. -/
theorem schedule_all_ok_elim {db : DB} {req : ScheduleRequest} {today : Int}
    {sched : Schedule} {db' : DB}
    (hne : unscheduledOf db ≠ [])
    (hrun : schedule_all_presentations db req today = Except.ok (sched, db')) :
    ∃ dsMin deMin, parseHM req.day_start_time = some dsMin ∧
      parseHM req.day_end_time = some deMin ∧
      (schedule_days req.conference_days.toNat today
        (sortRoomsByCapacityDesc db.rooms) dsMin deMin req.break_duration
        (unscheduledOf db)
        (initSchedule (sortRoomsByCapacityDesc db.rooms))).2 = sched ∧
      applySchedule db sched = db' := by
  unfold schedule_all_presentations at hrun
  split at hrun
  · rename_i dsMin deMin hps hpe
    simp only [] at hrun
    split at hrun
    · exact Except.noConfusion hrun
    · split at hrun
      · rename_i hempty
        exact absurd (List.isEmpty_iff.mp hempty) hne
      · simp only [Except.ok.injEq, Prod.mk.injEq] at hrun
        exact ⟨dsMin, deMin, hps, hpe, hrun.1, by rw [← hrun.1]; exact hrun.2⟩
  · simp only [] at hrun
    split at hrun
    · exact Except.noConfusion hrun
    · split at hrun
      · rename_i hempty
        exact absurd (List.isEmpty_iff.mp hempty) hne
      · exact Except.noConfusion hrun

theorem sorted_rooms_ids_nodup {db : DB}
    (hnd : (db.rooms.map Room.id).Nodup) :
    ((sortRoomsByCapacityDesc db.rooms).map Room.id).Nodup := by
  unfold sortRoomsByCapacityDesc
  exact ((sortDescBy_perm (fun r => r.capacity) db.rooms).map
    Room.id).nodup_iff.mpr hnd

theorem unscheduledOf_duration_nonneg {db : DB}
    (hdur : ∀ t ∈ db.presentations, 0 ≤ t.duration_minutes) :
    ∀ p ∈ unscheduledOf db, 0 ≤ p.duration_minutes := by
  intro p hp
  simp only [unscheduledOf, sortTalksByDurationDesc] at hp
  have hp2 := (sortDescBy_perm (fun t : Talk => t.duration_minutes)
    (db.presentations.filter fun t => t.start_time.isNone)).mem_iff.mp hp
  exact hdur p (List.mem_filter.mp hp2).1

/-- C1: on the scheduling path (some talk is unscheduled), with distinct room
ids, nonnegative talk durations and a nonnegative break — the domains the
spec assigns these inputs — the schedule returned by
`schedule_all_presentations` has no two placements of the same room
intersecting under the half-open test, and no two placements of the same
presenter intersecting, across all rooms. -/
theorem builder_no_double_booking (db : DB) (req : ScheduleRequest)
    (today : Int) (sched : Schedule) (db' : DB)
    (hnd : (db.rooms.map Room.id).Nodup)
    (hdur : ∀ t ∈ db.presentations, 0 ≤ t.duration_minutes)
    (hbr : 0 ≤ req.break_duration)
    (hne : unscheduledOf db ≠ [])
    (hrun : schedule_all_presentations db req today = Except.ok (sched, db')) :
    (∀ entry ∈ sched, entry.2.Pairwise noOv) ∧
    (allRecs sched).Pairwise spOK := by
  obtain ⟨dsMin, deMin, hps, hpe, hsched, _⟩ := schedule_all_ok_elim hne hrun
  obtain ⟨hds0, hds1⟩ := parseHM_range hps
  obtain ⟨hde0, hde1⟩ := parseHM_range hpe
  have hrn := sorted_rooms_ids_nodup hnd
  have hdur' := unscheduledOf_duration_nonneg hdur
  have hdays : schedule_days req.conference_days.toNat today
      (sortRoomsByCapacityDesc db.rooms) dsMin deMin req.break_duration
      (unscheduledOf db) (initSchedule (sortRoomsByCapacityDesc db.rooms)) =
      ((schedule_days req.conference_days.toNat today
        (sortRoomsByCapacityDesc db.rooms) dsMin deMin req.break_duration
        (unscheduledOf db)
        (initSchedule (sortRoomsByCapacityDesc db.rooms))).1, sched) := by
    rw [← hsched]
  have hndinit : ((initSchedule (sortRoomsByCapacityDesc db.rooms)).map
      Prod.fst).Nodup := by
    rw [initSchedule_keys]
    exact hrn
  have hBinit : ∀ rec ∈ allRecs
      (initSchedule (sortRoomsByCapacityDesc db.rooms)),
      rec.end_time + 0 ≤ today + minutesPerDay + dsMin := by
    rw [allRecs_init]
    intro rec hr
    exact absurd hr (List.not_mem_nil _)
  obtain ⟨_, _, hinvf, _, _⟩ := schedule_days_inv 0 req.break_duration dsMin
    deMin (sortRoomsByCapacityDesc db.rooms) le_rfl hbr hbr hds0 hde0
    (by simp only [minutesPerDay]; omega) hrn req.conference_days.toNat today
    (unscheduledOf db) (initSchedule (sortRoomsByCapacityDesc db.rooms)) _
    sched hdays hdur' hndinit (InvSched_init 0 _) hBinit
  refine ⟨?_, hinvf.2⟩
  intro entry he
  refine (hinvf.1 entry he).1.imp ?_
  intro a b hab
  unfold gapLE at hab
  exact Or.inl (by omega)

/-- C4 (amended): on the scheduling path, with distinct room ids,
nonnegative durations, a nonnegative break, and a break duration that does
not exceed the overnight gap `1440 - dayEndMin + dayStartMin` — without the
last condition a room's final placement of one day and first placement of the
next day can be separated by less than the break, as a concrete
two-day run below shows — every pair of placements of one room, in
particular every time-adjacent pair, satisfies
`next.start ≥ prev.end + breakDuration`. -/
theorem builder_gap_invariant_amended (db : DB) (req : ScheduleRequest)
    (today dsMin deMin : Int) (sched : Schedule) (db' : DB)
    (hnd : (db.rooms.map Room.id).Nodup)
    (hdur : ∀ t ∈ db.presentations, 0 ≤ t.duration_minutes)
    (hbr : 0 ≤ req.break_duration)
    (hps : parseHM req.day_start_time = some dsMin)
    (hpe : parseHM req.day_end_time = some deMin)
    (hbb : req.break_duration ≤ minutesPerDay - deMin + dsMin)
    (hne : unscheduledOf db ≠ [])
    (hrun : schedule_all_presentations db req today = Except.ok (sched, db')) :
    ∀ entry ∈ sched, entry.2.Pairwise (gapLE req.break_duration) := by
  obtain ⟨dsMin', deMin', hps', hpe', hsched, _⟩ := schedule_all_ok_elim hne
    hrun
  rw [hps] at hps'
  rw [hpe] at hpe'
  cases hps'
  cases hpe'
  obtain ⟨hds0, hds1⟩ := parseHM_range hps
  obtain ⟨hde0, hde1⟩ := parseHM_range hpe
  have hrn := sorted_rooms_ids_nodup hnd
  have hdur' := unscheduledOf_duration_nonneg hdur
  have hdays : schedule_days req.conference_days.toNat today
      (sortRoomsByCapacityDesc db.rooms) dsMin deMin req.break_duration
      (unscheduledOf db) (initSchedule (sortRoomsByCapacityDesc db.rooms)) =
      ((schedule_days req.conference_days.toNat today
        (sortRoomsByCapacityDesc db.rooms) dsMin deMin req.break_duration
        (unscheduledOf db)
        (initSchedule (sortRoomsByCapacityDesc db.rooms))).1, sched) := by
    rw [← hsched]
  have hndinit : ((initSchedule (sortRoomsByCapacityDesc db.rooms)).map
      Prod.fst).Nodup := by
    rw [initSchedule_keys]
    exact hrn
  have hBinit : ∀ rec ∈ allRecs
      (initSchedule (sortRoomsByCapacityDesc db.rooms)),
      rec.end_time + req.break_duration ≤ today + minutesPerDay + dsMin := by
    rw [allRecs_init]
    intro rec hr
    exact absurd hr (List.not_mem_nil _)
  obtain ⟨_, _, hinvf, _, _⟩ := schedule_days_inv req.break_duration
    req.break_duration dsMin deMin (sortRoomsByCapacityDesc db.rooms) hbr
    le_rfl hbr hds0 hde0 hbb hrn req.conference_days.toNat today
    (unscheduledOf db) (initSchedule (sortRoomsByCapacityDesc db.rooms)) _
    sched hdays hdur' hndinit (InvSched_init _ _) hBinit
  intro entry he
  exact (hinvf.1 entry he).1

/-- C5: on the scheduling path, with distinct room ids, nonnegative durations
and a nonnegative break, every placement of the returned schedule lies
entirely inside the window of a single conference day `k`
(`0 ≤ k < conference_days`): its half-open span is contained in
`[day_k + dayStartMin, day_k + dayEndMin)` where
`day_k = today + (k+1)*1440`. -/
theorem builder_window_containment (db : DB) (req : ScheduleRequest)
    (today dsMin deMin : Int) (sched : Schedule) (db' : DB)
    (hnd : (db.rooms.map Room.id).Nodup)
    (hdur : ∀ t ∈ db.presentations, 0 ≤ t.duration_minutes)
    (hbr : 0 ≤ req.break_duration)
    (hps : parseHM req.day_start_time = some dsMin)
    (hpe : parseHM req.day_end_time = some deMin)
    (hne : unscheduledOf db ≠ [])
    (hrun : schedule_all_presentations db req today = Except.ok (sched, db')) :
    ∀ rec ∈ allRecs sched, ∃ k : Nat, k < req.conference_days.toNat ∧
      today + ((k : Int) + 1) * minutesPerDay + dsMin ≤ rec.start_time ∧
      rec.end_time ≤ today + ((k : Int) + 1) * minutesPerDay + deMin := by
  obtain ⟨dsMin', deMin', hps', hpe', hsched, _⟩ := schedule_all_ok_elim hne
    hrun
  rw [hps] at hps'
  rw [hpe] at hpe'
  cases hps'
  cases hpe'
  obtain ⟨hds0, hds1⟩ := parseHM_range hps
  obtain ⟨hde0, hde1⟩ := parseHM_range hpe
  have hrn := sorted_rooms_ids_nodup hnd
  have hdur' := unscheduledOf_duration_nonneg hdur
  have hdays : schedule_days req.conference_days.toNat today
      (sortRoomsByCapacityDesc db.rooms) dsMin deMin req.break_duration
      (unscheduledOf db) (initSchedule (sortRoomsByCapacityDesc db.rooms)) =
      ((schedule_days req.conference_days.toNat today
        (sortRoomsByCapacityDesc db.rooms) dsMin deMin req.break_duration
        (unscheduledOf db)
        (initSchedule (sortRoomsByCapacityDesc db.rooms))).1, sched) := by
    rw [← hsched]
  have hndinit : ((initSchedule (sortRoomsByCapacityDesc db.rooms)).map
      Prod.fst).Nodup := by
    rw [initSchedule_keys]
    exact hrn
  have hBinit : ∀ rec ∈ allRecs
      (initSchedule (sortRoomsByCapacityDesc db.rooms)),
      rec.end_time + 0 ≤ today + minutesPerDay + dsMin := by
    rw [allRecs_init]
    intro rec hr
    exact absurd hr (List.not_mem_nil _)
  obtain ⟨_, _, _, hf2, _⟩ := schedule_days_inv 0 req.break_duration dsMin
    deMin (sortRoomsByCapacityDesc db.rooms) le_rfl hbr hbr hds0 hde0
    (by simp only [minutesPerDay]; omega) hrn req.conference_days.toNat today
    (unscheduledOf db) (initSchedule (sortRoomsByCapacityDesc db.rooms)) _
    sched hdays hdur' hndinit (InvSched_init 0 _) hBinit
  intro rec hr
  obtain ⟨entry, he, hrent⟩ := mem_allRecs.mp hr
  obtain ⟨e0, he0, _, new, hnew, hP⟩ := forall₂_mem_right hf2 he
  have he0nil : e0.2 = [] := by
    obtain ⟨r, _, rfl⟩ := List.mem_map.mp he0
    rfl
  rw [hnew, he0nil, List.nil_append] at hrent
  obtain ⟨k, hk, h1, _, h3⟩ := hP rec hrent
  exact ⟨k, hk, h1, h3⟩

instance (a b : PlacementRec) : Decidable (noOv a b) := by
  unfold noOv
  infer_instance

instance (a b : PlacementRec) : Decidable (spOK a b) := by
  unfold spOK
  infer_instance

instance (g : Int) (a b : PlacementRec) : Decidable (gapLE g a b) := by
  unfold gapLE
  infer_instance

/-! The remaining paths of the builder and the manual endpoint. -/

theorem sortRooms_isEmpty_false {db : DB} (hr : db.rooms ≠ []) :
    (sortRoomsByCapacityDesc db.rooms).isEmpty = false := by
  rcases hb : (sortRoomsByCapacityDesc db.rooms).isEmpty with _ | _
  · rfl
  · exfalso
    have hnil : sortRoomsByCapacityDesc db.rooms = [] := List.isEmpty_iff.mp hb
    have hperm := sortDescBy_perm (fun r => r.capacity) db.rooms
    unfold sortRoomsByCapacityDesc at hnil
    rw [hnil] at hperm
    exact hr hperm.nil_eq.symm

theorem applySchedule_init (db : DB) (rooms : List Room) :
    applySchedule db (initSchedule rooms) = db := by
  unfold applySchedule initSchedule
  cases db with
  | mk rs ps =>
    simp only [DB.mk.injEq, true_and]
    induction rooms with
    | nil => rfl
    | cons r rest ih => simpa using ih

/-- C6: with rooms present and no unscheduled talk, the builder is a pure
read: it returns the already-persisted schedule — every scheduled talk
grouped by room (in room-list order) and ordered by start time, which is what
`get_existing_schedule` computes — without touching the store (`db` is
returned unchanged, so repeated optimize calls on a fully placed schedule are
idempotent), and without attempting any placement. -/
theorem empty_unscheduled_pure_read (db : DB) (req : ScheduleRequest)
    (today : Int) (hr : db.rooms ≠ [])
    (hu : db.presentations.filter (fun t => t.start_time.isNone) = []) :
    schedule_all_presentations db req today =
      Except.ok (get_existing_schedule db, db) := by
  have h1 := sortRooms_isEmpty_false hr
  have h2 : (unscheduledOf db).isEmpty = true := by
    rw [List.isEmpty_iff]
    unfold unscheduledOf sortTalksByDurationDesc
    rw [hu]
    rfl
  unfold schedule_all_presentations
  simp [h1, h2]

/-- C8: the builder is deterministic — two runs on equal room/talk snapshots
with equal parameters and equal wall-clock anchors return identical results
(identical placements, instants and per-room order).  The only
nondeterministic input of the source, `datetime.now().date()`, is the
explicit `today` anchor here. -/
theorem builder_deterministic (db1 db2 : DB) (req1 req2 : ScheduleRequest)
    (t1 t2 : Int) (hdb : db1 = db2) (hreq : req1 = req2) (ht : t1 = t2) :
    schedule_all_presentations db1 req1 t1 =
      schedule_all_presentations db2 req2 t2 := by
  rw [hdb, hreq, ht]

/-- C8 witness: the determinism theorem applied at a concrete snapshot. -/
theorem builder_deterministic_witness :
    schedule_all_presentations (⟨[⟨1, ("n"), 100⟩],
      [⟨1, ("n"), 7, 60, none, none, none⟩]⟩ : DB)
      (⟨1, ("09:00"), ("18:00"), 15⟩ : ScheduleRequest) 0 =
    schedule_all_presentations (⟨[⟨1, ("n"), 100⟩],
      [⟨1, ("n"), 7, 60, none, none, none⟩]⟩ : DB)
      (⟨1, ("09:00"), ("18:00"), 15⟩ : ScheduleRequest) 0 :=
  builder_deterministic _ _ _ _ _ _ rfl rfl rfl

/-! Concrete inputs used by witnesses and counterexamples. -/

def strN : String := ("n")

def timeStr0900 : String := ("09:00")

def timeStr1800 : String := ("18:00")

def timeStr0000 : String := ("00:00")

def timeStr2359 : String := ("23:59")

/-- One room, one unscheduled 60-minute talk. -/
def wDB : DB := ⟨[⟨1, strN, 100⟩], [⟨1, strN, 7, 60, none, none, none⟩]⟩

def wReq : ScheduleRequest := ⟨1, timeStr0900, timeStr1800, 15⟩

/-- The schedule `wDB`/`wReq` produces (day 1 of anchor 0 is minute 1440;
09:00 of that day is minute 1980). -/
def wSched : Schedule := [(1, [⟨1, 1980, 2040, strN, 7, 60⟩])]

def wDBf : DB := ⟨[⟨1, strN, 100⟩], [⟨1, strN, 7, 60, some 1, some 1980,
  some 2040⟩]⟩

/-- C1 witness: the no-double-booking theorem applied to a concrete run. -/
theorem builder_no_double_booking_witness :
    (∀ entry ∈ wSched, entry.2.Pairwise noOv) ∧
    (allRecs wSched).Pairwise spOK :=
  builder_no_double_booking wDB wReq 0 wSched wDBf (by decide) (by decide)
    (by decide) (by decide) (by decide)

/-- C4 witness: the amended gap-invariant theorem applied to a concrete run
(window 09:00-18:00, break 15 ≤ overnight gap 900). -/
theorem builder_gap_invariant_witness :
    wReq.break_duration ≤ minutesPerDay - 1080 + 540 ∧
    (∀ entry ∈ wSched, entry.2.Pairwise (gapLE wReq.break_duration)) :=
  ⟨by decide,
   builder_gap_invariant_amended wDB wReq 0 540 1080 wSched wDBf (by decide)
     (by decide) (by decide) (by decide) (by decide) (by decide) (by decide)
     (by decide)⟩

/-- C5 witness: the window-containment theorem applied to a concrete run. -/
theorem builder_window_containment_witness :
    unscheduledOf wDB ≠ [] ∧
    (∀ rec ∈ allRecs wSched, ∃ k : Nat, k < wReq.conference_days.toNat ∧
      (0 : Int) + ((k : Int) + 1) * minutesPerDay + 540 ≤ rec.start_time ∧
      rec.end_time ≤ (0 : Int) + ((k : Int) + 1) * minutesPerDay + 1080) :=
  ⟨by decide,
   builder_window_containment wDB wReq 0 540 1080 wSched wDBf (by decide)
     (by decide) (by decide) (by decide) (by decide) (by decide) (by decide)⟩

/-- Two talks of 1439 minutes by different speakers, one room, window
00:00-23:59, break 2, two days. -/
def cexDB4 : DB := ⟨[⟨1, strN, 10⟩],
  [⟨1, strN, 1, 1439, none, none, none⟩, ⟨2, strN, 2, 1439, none, none, none⟩]⟩

def cexReq4 : ScheduleRequest := ⟨2, timeStr0000, timeStr2359, 2⟩

def cexRecA : PlacementRec := ⟨1, 0, 1439, strN, 1, 1439⟩

def cexRecB : PlacementRec := ⟨2, 1440, 2879, strN, 2, 1439⟩

def cexDB4f : DB := ⟨[⟨1, strN, 10⟩],
  [⟨1, strN, 1, 1439, some 1, some 0, some 1439⟩,
   ⟨2, strN, 2, 1439, some 1, some 1440, some 2879⟩]⟩

/-- C4 counterexample: the gap invariant as claimed fails across a day
boundary.  With window 00:00-23:59 and break 2, the builder commits, in the
same room, a talk ending at minute 1439 (day 1) and a talk starting at minute
1440 (day 2): time-adjacent placements whose gap (1 minute) is smaller than
the break duration (2 minutes). -/
theorem gap_invariant_counterexample :
    schedule_all_presentations cexDB4 cexReq4 (-1440) =
      Except.ok ([(1, [cexRecA, cexRecB])], cexDB4f) ∧
    ¬ List.Chain' (gapLE cexReq4.break_duration) [cexRecA, cexRecB] := by
  constructor
  · decide
  · intro hc
    have h1 := List.chain'_pair.mp hc
    unfold gapLE at h1
    simp only [cexRecA, cexRecB, cexReq4] at h1
    omega

/-- A fully placed store: one room, one scheduled talk. -/
def wDB6 : DB := ⟨[⟨1, strN, 10⟩],
  [⟨1, strN, 7, 60, some 1, some 100, some 160⟩]⟩

/-- C6 witness: the pure-read theorem applied to a fully placed store. -/
theorem empty_unscheduled_pure_read_witness :
    schedule_all_presentations wDB6 wReq 0 =
      Except.ok (get_existing_schedule wDB6, wDB6) :=
  empty_unscheduled_pure_read wDB6 wReq 0 (by decide) (by decide)

theorem unscheduledOf_isEmpty_false {db : DB} (hu : unscheduledOf db ≠ []) :
    (unscheduledOf db).isEmpty = false := by
  rcases hb : (unscheduledOf db).isEmpty with _ | _
  · rfl
  · exact absurd (List.isEmpty_iff.mp hb) hu

/-- C7 (amended): an empty room list fails with the `InputError`
`"No rooms available"`, and (on the scheduling path) a malformed time-of-day
parameter is rejected before any scheduling attempt with nothing committed;
but a non-positive day count is NOT rejected: the request passes validation,
the run performs zero day passes and returns every room mapped to an empty
list, with the store returned unchanged (nothing committed, no talk
mutated). -/
theorem input_validation_amended :
    (∀ (db : DB) (req : ScheduleRequest) (today : Int), db.rooms = [] →
      schedule_all_presentations db req today = Except.error msgNoRooms) ∧
    (∀ (db : DB) (req : ScheduleRequest) (today : Int),
      db.rooms ≠ [] → unscheduledOf db ≠ [] →
      (parseHM req.day_start_time = none ∨ parseHM req.day_end_time = none) →
      schedule_all_presentations db req today = Except.error msgBadTime) ∧
    (∀ (db : DB) (req : ScheduleRequest) (today : Int),
      req.conference_days ≤ 0 → db.rooms ≠ [] → unscheduledOf db ≠ [] →
      ∀ dsMin deMin, parseHM req.day_start_time = some dsMin →
        parseHM req.day_end_time = some deMin →
        schedule_all_presentations db req today =
          Except.ok (initSchedule (sortRoomsByCapacityDesc db.rooms), db)) := by
  refine ⟨?_, ?_, ?_⟩
  · intro db req today h
    have hs : sortRoomsByCapacityDesc db.rooms = [] := by
      rw [h]
      rfl
    unfold schedule_all_presentations
    simp [hs]
  · intro db req today hr hu hbad
    have h1 := sortRooms_isEmpty_false hr
    have h2 := unscheduledOf_isEmpty_false hu
    unfold schedule_all_presentations
    simp only [h1, h2, Bool.false_eq_true, if_false]
    rcases hbad with hb | hb
    · rw [hb]
    · rcases hsv : parseHM req.day_start_time with _ | v
      · rfl
      · rw [hb]
  · intro db req today hd hr hu dsMin deMin hps hpe
    have h1 := sortRooms_isEmpty_false hr
    have h2 := unscheduledOf_isEmpty_false hu
    have ht : req.conference_days.toNat = 0 := by omega
    unfold schedule_all_presentations
    simp only [h1, h2, Bool.false_eq_true, if_false, hps, hpe, ht]
    simp only [schedule_days]
    rw [applySchedule_init]

def cexReq7 : ScheduleRequest := ⟨0, timeStr0900, timeStr1800, 15⟩

/-- C7 counterexample: a run with day count 0 — non-positive — is NOT
rejected: with one room and one unscheduled talk it succeeds, returning the
room mapped to an empty list and leaving the store untouched. -/
theorem nonpositive_days_not_rejected :
    schedule_all_presentations wDB cexReq7 0 = Except.ok ([(1, [])], wDB) := by
  decide

/-- C7 witness: the amended validation theorem applied at concrete inputs —
an empty room list, a malformed start time, and a zero day count. -/
theorem input_validation_amended_witness :
    schedule_all_presentations (⟨[], [⟨1, strN, 7, 60, none, none, none⟩]⟩ :
      DB) wReq 0 = Except.error msgNoRooms ∧
    schedule_all_presentations wDB (⟨1, strN, timeStr1800, 15⟩ :
      ScheduleRequest) 0 = Except.error msgBadTime ∧
    schedule_all_presentations wDB cexReq7 0 =
      Except.ok (initSchedule (sortRoomsByCapacityDesc wDB.rooms), wDB) :=
  ⟨input_validation_amended.1 _ wReq 0 rfl,
   input_validation_amended.2.1 wDB _ 0 (by decide) (by decide)
     (Or.inl (by decide)),
   input_validation_amended.2.2 wDB cexReq7 0 (by decide) (by decide)
     (by decide) 540 1080 (by decide) (by decide)⟩

/-- C9: for the manual single-talk endpoint, if the store holds a placement
`x` in room `rid` (say talk X, placed earlier), and talk `y` is scheduled
into the same room over a span intersecting `x`'s, the request fails with the
ConflictError and — since the error is raised before any row is touched (the
returned-state-on-success model commits nothing on error) — the prior
schedule, in particular `x`'s placement, is left intact. -/
theorem manual_conflict_rejected (db : DB) (yid rid : Nat) (t sx ex : Int)
    (y x : Talk)
    (hfind : db.presentations.find? (fun q => decide (q.id = yid)) = some y)
    (hx : x ∈ db.presentations)
    (hxid : x.id ≠ yid)
    (hxroom : x.room_id = some rid)
    (hxs : x.start_time = some sx)
    (hxe : x.end_time = some ex)
    (hov1 : sx < t + y.duration_minutes)
    (hov2 : t < ex) :
    schedule_presentation db yid rid t = Except.error msgBooked := by
  unfold schedule_presentation
  rw [hfind]
  simp only []
  have hconf : ∃ q ∈ db.presentations,
      manualConflict yid rid t (t + y.duration_minutes) q = true := by
    refine ⟨x, hx, ?_⟩
    unfold manualConflict
    rw [hxroom, hxs, hxe]
    simp [hxid, hov1, hov2]
  obtain ⟨q, hq⟩ := Option.isSome_iff_exists.mp (List.find?_isSome.mpr hconf)
  rw [hq]

/-- A store with talk X (id 1, speaker 3) placed in room 5 over `[100, 160)`
and an unscheduled 30-minute talk Y (id 2, speaker 4). -/
def wDB9 : DB := ⟨[⟨5, strN, 10⟩],
  [⟨1, strN, 3, 60, some 5, some 100, some 160⟩,
   ⟨2, strN, 4, 30, none, none, none⟩]⟩

/-- C9 witness: scheduling Y into room 5 at 130 — overlapping X's `[100,160)`
— is rejected with the conflict error. -/
theorem manual_conflict_rejected_witness :
    schedule_presentation wDB9 2 5 130 = Except.error msgBooked :=
  manual_conflict_rejected wDB9 2 5 130 100 160
    (⟨2, strN, 4, 30, none, none, none⟩)
    (⟨1, strN, 3, 60, some 5, some 100, some 160⟩)
    (by decide) (by decide) (by decide) (by decide) (by decide) (by decide)
    (by decide) (by decide)

/-- Two rooms; talk X (id 1, speaker 7) placed in room 1 over `[100, 160)`;
talk Y (id 2, same speaker 7) unscheduled. -/
def wDB10 : DB := ⟨[⟨1, strN, 10⟩, ⟨2, strN, 10⟩],
  [⟨1, strN, 7, 60, some 1, some 100, some 160⟩,
   ⟨2, strN, 7, 60, none, none, none⟩]⟩

def wDB10f : DB := ⟨[⟨1, strN, 10⟩, ⟨2, strN, 10⟩],
  [⟨1, strN, 7, 60, some 1, some 100, some 160⟩,
   ⟨2, strN, 7, 60, some 2, some 130, some 190⟩]⟩

/-- C10: the manual endpoint checks conflicts only within the target room:
scheduling Y (speaker 7) into room 2 over `[130, 190)` succeeds and commits,
although the same speaker's talk X is already placed in room 1 over
`[100, 160)` — the committed pair violates the cross-room
speaker-no-overlap property (`spOK` fails on it), so that invariant is not
enforced on this path. -/
theorem manual_cross_room_speaker_overlap :
    schedule_presentation wDB10 2 2 130 =
      Except.ok (⟨2, strN, 7, 60, some 2, some 130, some 190⟩, wDB10f) ∧
    ¬ spOK ⟨1, 100, 160, strN, 7, 60⟩ ⟨2, 130, 190, strN, 7, 60⟩ := by
  exact ⟨by decide, by decide⟩
